import Mathlib

/-!
Verification of the rule-based phishing classifier (xile1310/pythonproj-2025).

Strings are modelled as lists of characters (`List Char`); Python's `str.lower`
is modelled by the ASCII case map, substring containment (`in`) by
`containsSub`, and the regular expressions of the source by explicit scanners.
Machine floats of the newrules variant are modelled as rationals.

Namespaces: `V2` embeds phish-detector-version2/rules.py, `NR` embeds
phish-detector-version2/newrules.py (with config.py defaults), `PD` embeds
phish-detector/phishdetector/utils.py.
-/

set_option maxHeartbeats 1000000
set_option maxRecDepth 8000

namespace PhishModel

/-- Python str.lower, restricted to the ASCII case mapping. -/
def lowerL (l : List Char) : List Char := l.map Char.toLower

/-- Python substring containment: containsSub hay needle models needle in hay. -/
def containsSub : List Char → List Char → Bool
  | [], needle => needle.isEmpty
  | c :: t, needle => needle.isPrefixOf (c :: t) || containsSub t needle

/-- Python whitespace class (ASCII part), as used by the regexp class S and str.strip. -/
def pySpace (c : Char) : Bool :=
  c = ' ' || c = '\t' || c = '\n' || c = '\r' || c = '\x0b' || c = '\x0c'

/-- Python str.strip: remove leading and trailing whitespace. -/
def pyStrip (l : List Char) : List Char :=
  ((l.dropWhile pySpace).reverse.dropWhile pySpace).reverse

/-- Python s.split(sep)[-1] for a one-character separator: the part after the
last separator (the whole string when the separator is absent). -/
def afterLastChar (sep : Char) (l : List Char) : List Char :=
  (l.reverse.takeWhile (fun c => !(c = sep))).reverse

/-- Python s.split(sep, 1)[1] for a one-character separator occurring in s: the
part after the first separator. -/
def afterFirstChar (sep : Char) (l : List Char) : List Char :=
  (l.dropWhile (fun c => !(c = sep))).drop 1

/-- Python s.split(sep) for a one-character separator, empty parts preserved. -/
def splitOnChar (sep : Char) : List Char → List (List Char)
  | [] => [[]]
  | c :: t =>
    if c = sep then [] :: splitOnChar sep t
    else
      match splitOnChar sep t with
      | [] => [[c]]
      | h :: r => (c :: h) :: r

/-- Index of the first occurrence of needle in hay, if any. -/
def idxOfSub (needle : List Char) : List Char → Option Nat
  | [] => if needle.isPrefixOf ([] : List Char) then some 0 else none
  | c :: t =>
    if needle.isPrefixOf (c :: t) then some 0
    else (idxOfSub needle t).map (· + 1)

/-- Python s.split(sep, 1)[-1] for a multi-character separator: the part after
the first occurrence (the whole string when the separator is absent). -/
def afterFirstSub (sep l : List Char) : List Char :=
  match idxOfSub sep l with
  | some i => l.drop (i + sep.length)
  | none => l

/-- Cost of substituting y for x (0 when equal, else 1), the cost term of the
dp recurrences in rules.py and utils.py. -/
def subCost (x y : Char) : Nat := if x = y then 0 else 1

/-- Inner loop of the Levenshtein dynamic program (levenshtein_distance in
rules.py): given the tail of the previous dp row, the diagonal entry
dp[i-1][j-1] and the entry dp[i][j-1] just computed, produce the remainder of
row i via dp[i][j] = min(dp[i-1][j]+1, dp[i][j-1]+1, dp[i-1][j-1]+cost). -/
def levRow (ca : Char) : List Char → List Nat → Nat → Nat → List Nat
  | [], _, _, _ => []
  | cb :: bs, prev, diag, left =>
    match prev with
    | [] => []
    | pj :: ps =>
      let cur := min (pj + 1) (min (left + 1) (diag + subCost ca cb))
      cur :: levRow ca bs ps pj cur

/-- Outer loop of the Levenshtein dynamic program: fold rows dp[1], ..., dp[la],
each row starting with dp[i][0] = i. -/
def levRows (b : List Char) : List Char → Nat → List Nat → List Nat
  | [], _, row => row
  | ca :: ar, i, row =>
    levRows b ar (i + 1) ((i + 1) :: levRow ca b row.tail (row.headD 0) (i + 1))

/-- Levenshtein edit distance on character lists, computed row by row exactly as
the dp-table loops of rules.py do; the result dp[la][lb] is the last entry of
the final row. -/
def levL (a b : List Char) : Nat :=
  (levRows b a 0 (List.range (b.length + 1))).getLastD 0

/-- levenshtein_distance of rules.py and utils.py, on strings. -/
def levenshtein_distance (a b : String) : Nat := levL a.data b.data

/-- Clean structural form of the same dp recurrence, used for the metric
proofs: base rows dp[i][0] = i, dp[0][j] = j and the three-way minimum. -/
def levRec : List Char → List Char → Nat
  | [], ys => ys.length
  | x :: xs, [] => (x :: xs).length
  | x :: xs, y :: ys =>
    min (levRec xs (y :: ys) + 1)
      (min (levRec (x :: xs) ys + 1) (levRec xs ys + subCost x y))
termination_by a b => (a.length, b.length)

/-- Alignment relation: Aligns a b n holds when a can be rewritten to b by
insertions, deletions and substitutions of total cost n. -/
inductive Aligns : List Char → List Char → Nat → Prop
  | nil : Aligns [] [] 0
  | ins (y : Char) {xs ys : List Char} {n : Nat} :
      Aligns xs ys n → Aligns xs (y :: ys) (n + 1)
  | del (x : Char) {xs ys : List Char} {n : Nat} :
      Aligns xs ys n → Aligns (x :: xs) ys (n + 1)
  | sub (x y : Char) {xs ys : List Char} {n : Nat} :
      Aligns xs ys n → Aligns (x :: xs) (y :: ys) (n + subCost x y)

/-- Row i of the Levenshtein dp table for the already-processed text ta against
b: the distances of ta to each prefix of b. -/
def rowFor (ta b : List Char) : List Nat :=
  (List.range (b.length + 1)).map (fun j => levRec ta (b.take j))

/-- Does the regexp http[s]?:// match at the head of l?  Returns the length of
the matched scheme. -/
def httpSchemeLen (l : List Char) : Option Nat :=
  if "https://".data.isPrefixOf l then some 8
  else if "http://".data.isPrefixOf l then some 7
  else none

/-- Fuel-indexed scanner realizing re.findall for the pattern http[s]?:// followed
by a maximal nonempty run of non-whitespace; scanning resumes after each match.
One unit of fuel is spent per examined position, so fuel = length suffices. -/
def urlScan : Nat → List Char → List (List Char)
  | 0, _ => []
  | _ + 1, [] => []
  | fuel + 1, c :: cs =>
    match httpSchemeLen (c :: cs) with
    | some k =>
      let rest := (c :: cs).drop k
      let run := rest.takeWhile (fun ch => !pySpace ch)
      if run.isEmpty then urlScan fuel cs
      else ((c :: cs).take k ++ run) :: urlScan fuel (rest.drop run.length)
    | none => urlScan fuel cs

namespace V2

/-- Rule configuration of phish-detector-version2 (config.json contents): legit
domains and suspicious keywords, already trimmed and lowercased by apply_cfg. -/
structure Config where
  legit_domains : List (List Char)
  keywords : List (List Char)

/-- DEFAULT_CONFIGURATION of rules.py. -/
def defaultV2 : Config :=
  { legit_domains := ["singapore.tech.edu.sg".data, "paypal.com".data, "google.com".data]
    keywords := ["urgent".data, "verify".data, "account".data, "password".data, "click".data] }

/-- extract_urls of rules.py: all matches of the pattern http[s]?:// followed by
a maximal run of non-whitespace characters. -/
def extract_urls (text : List Char) : List (List Char) :=
  urlScan text.length text

/-- url_domain of rules.py: the hostname of an http(s) URL via urlparse — the
netloc is the text between :// and the next /, ? or #; credentials (through the
first @) and the port (after the first :) are stripped and the rest lowercased.
Inputs without an http(s) scheme (never produced by extract_urls) map to "". -/
def url_domain (url : List Char) : List Char :=
  match httpSchemeLen url with
  | none => []
  | some k =>
    let netloc := (url.drop k).takeWhile (fun c => !(c = '/' || c = '?' || c = '#'))
    let netloc := if netloc.contains '@' then afterFirstChar '@' netloc else netloc
    let netloc := netloc.takeWhile (fun c => !(c = ':'))
    lowerL netloc

/-- is_ip_literal of rules.py, re.fullmatch on four dot-separated digit groups. -/
def is_ip_literal (host : List Char) : Bool :=
  let ps := splitOnChar '.' host
  ps.length == 4 && ps.all (fun p => !p.isEmpty && p.all Char.isDigit)

/-- domain_matches of rules.py: host equals root or ends with "." ++ root,
case-insensitively. -/
def domain_matches (host root : List Char) : Bool :=
  let h := lowerL host
  let r := lowerL root
  h == r || ('.' :: r).isSuffixOf h

/-- whitelist_check of rules.py: 0 when the sender domain (the part after the
last @, lowercased; "" when there is no @) is a configured legit domain, else 2. -/
def whitelist_check (cfg : Config) (sender_email : List Char) : Nat :=
  let domain := if sender_email.contains '@' then lowerL (afterLastChar '@' sender_email) else []
  if domain ∈ cfg.legit_domains then 0 else 2

/-- keyword_check of rules.py: per configured keyword, +3 when it occurs in the
lowercased subject, +1 in the lowercased body, +2 in the first 200 body
characters. -/
def keyword_check (cfg : Config) (subject body : List Char) : Nat :=
  let s := lowerL subject
  let b := lowerL body
  let early := b.take 200
  cfg.keywords.foldl
    (fun score kw =>
      ((score + (if containsSub s kw then 3 else 0))
        + (if containsSub b kw then 1 else 0))
        + (if containsSub early kw then 2 else 0))
    0

/-- edit_distance_check of rules.py: +5 when the sender domain is nonempty and
within Levenshtein distance 2 of some distinct legit domain. -/
def edit_distance_check (cfg : Config) (sender_email : List Char) : Nat :=
  let domain := if sender_email.contains '@' then lowerL (afterLastChar '@' sender_email) else []
  if domain.isEmpty then 0
  else if cfg.legit_domains.any
      (fun legit => !(domain == legit) && decide (levL domain legit ≤ 2)) then 5
  else 0

/-- suspicious_url_check of rules.py: over all URLs found in the body, +5 for an
IP-literal host, +3 for an @ inside the authority (between :// and the first /),
and +4 when some legit domain mentioned in the lowercased subject+body text does
not match the URL host. -/
def suspicious_url_check (cfg : Config) (subject body : List Char) : Nat :=
  let urls := extract_urls body
  if urls.isEmpty then 0
  else
    let text := lowerL (subject ++ '\n' :: body)
    let claimed := cfg.legit_domains.filter (fun d => containsSub text d)
    urls.foldl
      (fun score url =>
        let host := url_domain url
        let score := score + (if is_ip_literal host then 5 else 0)
        let auth := (afterFirstSub "://".data url).takeWhile (fun c => !(c = '/'))
        let score := score + (if auth.contains '@' then 3 else 0)
        score + (if claimed.any (fun d => !domain_matches host d) then 4 else 0))
      0

/-- classify_email of rules.py: the four rule scores are summed; the label is
Phishing exactly when the total is strictly greater than 10. -/
def classify_email (cfg : Config) (sender subject body : List Char) : String × Nat :=
  let score := ((whitelist_check cfg sender + keyword_check cfg subject body)
      + edit_distance_check cfg sender) + suspicious_url_check cfg subject body
  (if 10 < score then "Phishing" else "Safe", score)

/-- Contribution of a single keyword in keyword_check of rules.py, with s and b
the already-lowercased subject and body. -/
def kwContrib (kw s b : List Char) : Nat :=
  ((if containsSub s kw then 3 else 0) + (if containsSub b kw then 1 else 0))
    + (if containsSub (b.take 200) kw then 2 else 0)

end V2

/-- An occurrence of kw in b starting at index i. -/
def occursAt (kw b : List Char) (i : Nat) : Prop := kw <+: b.drop i

instance (kw b : List Char) (i : Nat) : Decidable (occursAt kw b i) :=
  inferInstanceAs (Decidable (kw <+: b.drop i))

namespace PD

/-- extract_domain of phish-detector utils.py: the part after the first @,
lowercased then stripped; the empty string when there is no @. -/
def extract_domain (email : List Char) : List Char :=
  if email.contains '@' then pyStrip (lowerL (afterFirstChar '@' email)) else []

end PD

/-- Local-part character class of EMAIL_RE in newrules.py (with re.IGNORECASE). -/
def emailLocalChar (c : Char) : Bool :=
  c.isAlpha || c.isDigit || c = '.' || c = '_' || c = '%' || c = '+' || c = '-'

/-- Domain character class [A-Z0-9.-] of EMAIL_RE. -/
def emailDomChar (c : Char) : Bool :=
  c.isAlpha || c.isDigit || c = '.' || c = '-'

/-- Backtracking for the domain group of EMAIL_RE at a fixed position: the
greedy subpattern [A-Z0-9.-]+ tries lengths k, k-1, ..., 1; a length succeeds
when a dot and at least two letters (taken greedily) follow. -/
def emailDomTry (rest : List Char) : Nat → Option (List Char)
  | 0 => none
  | k + 1 =>
    match rest.drop (k + 1) with
    | '.' :: t2 =>
      let lrun := t2.takeWhile Char.isAlpha
      if 2 ≤ lrun.length then some (rest.take (k + 1) ++ '.' :: lrun)
      else emailDomTry rest k
    | _ => emailDomTry rest k

/-- Attempt to match EMAIL_RE at the current position: a maximal nonempty run of
local characters (maximal munch is exact here since @ is not a local character),
an @, then the domain group. Returns group(1). -/
def emailMatchAt (l : List Char) : Option (List Char) :=
  let run := l.takeWhile emailLocalChar
  if run.isEmpty then none
  else
    match l.drop run.length with
    | '@' :: rest => emailDomTry rest (rest.takeWhile emailDomChar).length
    | _ => none

/-- re.search of EMAIL_RE over the sender string: the match at the first
position where one exists. -/
def emailSearch : List Char → Option (List Char)
  | [] => none
  | c :: cs =>
    match emailMatchAt (c :: cs) with
    | some g => some g
    | none => emailSearch cs

namespace NR

/-- Configuration consumed by newrules.py through config.py: the configured
lists plus the numeric thresholds (floats modelled as rationals). -/
structure Config where
  legit_domains : List (List Char)
  keywords : List (List Char)
  safe_terms : List (List Char)
  phish_score : ℚ
  keyword_weight : ℚ
  url_weight : ℚ
  safe_downweight : ℚ
  max_levenshtein_distance : Nat

/-- DEFAULT_CONFIGURATION of config.py; max_levenshtein_distance takes the
in-code default 2. -/
def defaultNR : Config :=
  { legit_domains := ["singapore.tech.edu.sg".data, "paypal.com".data, "google.com".data]
    keywords := ["urgent".data, "verify".data, "account".data, "password".data, "click".data]
    safe_terms := ["newsletter".data]
    phish_score := 3/2
    keyword_weight := 1
    url_weight := 4/5
    safe_downweight := 9/10
    max_levenshtein_distance := 2 }

/-- Two regular-expression helpers of newrules.py that no claim depends on are
kept abstract: the domain-shaped-token extractor of edit_distance_check
(domain_pattern findall) and the risky-attachment test (RISKY_ATTACH_RE search).
Every theorem below holds for every choice of these functions. -/
structure Oracles where
  findDomains : List Char → List (List Char)
  riskyAttach : List Char → Bool

/-- extract_domain of newrules.py: group(1) of the first EMAIL_RE match in the
sender, lowercased; "" when there is no match. -/
def extract_domain (sender : List Char) : List Char :=
  match emailSearch sender with
  | some g => lowerL g
  | none => []

/-- whitelist_check of newrules.py: authoritative hit when the sender domain is
nonempty and a bare endswith-match of some legit domain; otherwise a url_weight
score when the text contains http://, https:// or www. (reason strings, which
never influence the returned label or score, are not modelled). -/
def whitelist_check (cfg : Config) (sender text_l : List Char) : Bool × ℚ :=
  let dom := extract_domain sender
  if !dom.isEmpty && cfg.legit_domains.any (fun ld => ld.isSuffixOf dom) then (true, 0)
  else if containsSub text_l "http://".data || containsSub text_l "https://".data
      || containsSub text_l "www.".data then (false, cfg.url_weight)
  else (false, 0)

/-- keyword_check of newrules.py: the number of configured keywords occurring in
the text, times keyword_weight. -/
def keyword_check (cfg : Config) (text_l : List Char) : ℚ :=
  let kw_hits := (cfg.keywords.filter (fun k => containsSub text_l k)).length
  if kw_hits ≠ 0 then (kw_hits : ℚ) * cfg.keyword_weight else 0

/-- edit_distance_check of newrules.py: +1 per domain-shaped token of the text
whose minimal Levenshtein distance to the legit domains is positive and at most
max_levenshtein_distance (the dp inlined in the source is levL). -/
def edit_distance_check (O : Oracles) (cfg : Config) (text_l : List Char) : ℚ :=
  (O.findDomains text_l).foldl
    (fun score fd =>
      let fdl := lowerL fd
      if fdl ∈ cfg.legit_domains then score
      else
        match (cfg.legit_domains.map (fun ld => levL fdl ld)).min? with
        | none => score
        | some m =>
          if m ≤ cfg.max_levenshtein_distance ∧ 0 < m then score + 1 else score)
    0

/-- safety_checks of newrules.py: +0.8 for a risky attachment token,
minus safe_downweight when a safe term occurs in the subject or the text,
minus 0.5 when at most one keyword hit, +0.2 when at least two. -/
def safety_checks (O : Oracles) (cfg : Config) (subject_l text_l : List Char)
    (kw_hits : Nat) : ℚ :=
  let s1 : ℚ := if O.riskyAttach text_l then 4/5 else 0
  let s2 : ℚ := s1 - (if cfg.safe_terms.any (fun s => containsSub subject_l s)
      || cfg.safe_terms.any (fun s => containsSub text_l s) then cfg.safe_downweight else 0)
  let s3 : ℚ := s2 - (if kw_hits ≤ 1 then 1/2 else 0)
  s3 + (if 2 ≤ kw_hits then 1/5 else 0)

/-- Python round(x, 2) on the rational model, rounding to hundredths; Python's
half-even float rounding and this floor-based form agree except exactly halfway
between two hundredths. -/
def round2 (q : ℚ) : ℚ := (⌊q * 100 + 1/2⌋ : ℚ) / 100

/-- Body of the try block of classify_email in newrules.py; in this model every
step is total, so the body always produces a result. -/
def classify_email_try (O : Oracles) (cfg : Config) (sender subject body : List Char) :
    Option (String × ℚ) :=
  let subject_l := lowerL subject
  let body_l := lowerL body
  let text_l := subject_l ++ '\n' :: body_l
  let kw_hits := (cfg.keywords.filter (fun k => containsSub text_l k)).length
  let w := whitelist_check cfg sender text_l
  if w.1 then some ("Ham", w.2)
  else
    let total := w.2 + keyword_check cfg text_l + edit_distance_check O cfg text_l
      + safety_checks O cfg subject_l text_l kw_hits
    some (if cfg.phish_score ≤ total then "Phishing" else "Ham", round2 total)

/-- Exception handler of classify_email in newrules.py: the documented fallback
value for a failed classification. -/
def classify_fallback (r : Option (String × ℚ)) : String × ℚ :=
  r.getD ("Ham", -999)

/-- classify_email of newrules.py: the try body guarded by the fallback. -/
def classify_email (O : Oracles) (cfg : Config) (sender subject body : List Char) :
    String × ℚ :=
  classify_fallback (classify_email_try O cfg sender subject body)

end NR

/-! Supporting lemmas. -/

theorem containsSub_iff_exists_drop (hay needle : List Char) :
    containsSub hay needle = true ↔ ∃ i, needle <+: hay.drop i := by
  induction hay with
  | nil =>
    simp only [containsSub, List.isEmpty_iff, List.drop_nil, List.prefix_nil]
    constructor
    · rintro rfl; exact ⟨0, rfl⟩
    · rintro ⟨i, h⟩; exact h
  | cons c t ih =>
    simp only [containsSub, Bool.or_eq_true, List.isPrefixOf_iff_prefix, ih]
    constructor
    · rintro (h | ⟨i, h⟩)
      · exact ⟨0, by simpa using h⟩
      · exact ⟨i + 1, by simpa using h⟩
    · rintro ⟨i, h⟩
      match i with
      | 0 => exact Or.inl (by simpa using h)
      | i + 1 => exact Or.inr ⟨i, by simpa using h⟩

theorem infix_iff_exists_drop (kw l : List Char) :
    kw <:+: l ↔ ∃ i, kw <+: l.drop i := by
  constructor
  · rintro ⟨s, t, rfl⟩
    refine ⟨s.length, ?_⟩
    rw [List.append_assoc, List.drop_left]
    exact ⟨t, rfl⟩
  · rintro ⟨i, t, ht⟩
    exact ⟨l.take i, t, by rw [List.append_assoc, ht, List.take_append_drop]⟩

theorem containsSub_infix_iff (hay needle : List Char) :
    containsSub hay needle = true ↔ needle <:+: hay := by
  rw [containsSub_iff_exists_drop, infix_iff_exists_drop]

theorem containsSub_take_iff (kw b : List Char) (n : Nat) :
    containsSub (b.take n) kw = true ↔ ∃ i, i + kw.length ≤ n ∧ occursAt kw b i := by
  rw [containsSub_iff_exists_drop]
  constructor
  · rintro ⟨i, h⟩
    rw [List.drop_take, List.prefix_take_iff] at h
    obtain ⟨hp, hl⟩ := h
    by_cases hin : i ≤ n
    · exact ⟨i, by omega, hp⟩
    · have : kw.length = 0 := by omega
      have : kw = [] := List.length_eq_zero.mp this
      subst this
      exact ⟨0, by omega, List.nil_prefix⟩
  · rintro ⟨i, hle, hp⟩
    refine ⟨i, ?_⟩
    rw [List.drop_take, List.prefix_take_iff]
    exact ⟨hp, by omega⟩

theorem containsSub_of_occursAt {kw b : List Char} {i : Nat} (h : occursAt kw b i) :
    containsSub b kw = true :=
  (containsSub_iff_exists_drop b kw).mpr ⟨i, h⟩

theorem containsSub_take_mono {kw b : List Char} {n : Nat}
    (h : containsSub (b.take n) kw = true) : containsSub b kw = true := by
  rw [containsSub_infix_iff] at h ⊢
  exact h.trans (List.take_prefix n b).isInfix

theorem foldl_add_map_sum {α : Type} (g : α → Nat) (l : List α) :
    ∀ n : Nat, l.foldl (fun s x => s + g x) n = n + (l.map g).sum := by
  induction l with
  | nil => intro n; simp
  | cons x t ih => intro n; simp [List.foldl, ih, add_assoc]

theorem keyword_check_eq_sum (cfg : V2.Config) (subject body : List Char) :
    V2.keyword_check cfg subject body
      = (cfg.keywords.map
          (fun kw => V2.kwContrib kw (lowerL subject) (lowerL body))).sum := by
  unfold V2.keyword_check
  rw [List.foldl_ext (g := fun score kw =>
      score + V2.kwContrib kw (lowerL subject) (lowerL body))]
  · rw [foldl_add_map_sum]; omega
  · intro a kw _
    simp [V2.kwContrib, add_assoc]

/-! Levenshtein metric development: the dp recurrence levRec is characterised by
the alignment relation, which yields reflexivity, symmetry and the triangle
inequality; a row invariant then identifies the table computation levL with
levRec. -/

theorem subCost_self (x : Char) : subCost x x = 0 := by simp [subCost]

theorem subCost_le_one (x y : Char) : subCost x y ≤ 1 := by
  unfold subCost; split <;> omega

theorem subCost_comm (x y : Char) : subCost x y = subCost y x := by
  unfold subCost
  by_cases h : x = y
  · simp [h]
  · simp [h, Ne.symm h]

theorem subCost_triangle (x y z : Char) : subCost x z ≤ subCost x y + subCost y z := by
  by_cases h1 : x = y
  · subst h1; simp [subCost_self]
  · have h2 := subCost_le_one x z
    have h3 : subCost x y = 1 := by simp [subCost, h1]
    omega

theorem levRec_nil (ys : List Char) : levRec [] ys = ys.length := by
  simp [levRec]

theorem levRec_nil_right (xs : List Char) : levRec xs [] = xs.length := by
  cases xs <;> simp [levRec]

theorem levRec_cons_cons (x y : Char) (xs ys : List Char) :
    levRec (x :: xs) (y :: ys)
      = min (levRec xs (y :: ys) + 1)
          (min (levRec (x :: xs) ys + 1) (levRec xs ys + subCost x y)) := by
  simp [levRec]

theorem levRec_le_ins (xs : List Char) (y : Char) (ys : List Char) :
    levRec xs (y :: ys) ≤ levRec xs ys + 1 := by
  cases xs with
  | nil => simp [levRec_nil]
  | cons x t =>
    rw [levRec_cons_cons]
    exact le_trans (min_le_right _ _) (min_le_left _ _)

theorem levRec_le_del (x : Char) (xs ys : List Char) :
    levRec (x :: xs) ys ≤ levRec xs ys + 1 := by
  cases ys with
  | nil => simp [levRec_nil_right]
  | cons y t =>
    rw [levRec_cons_cons]
    exact min_le_left _ _

theorem levRec_le_sub (x y : Char) (xs ys : List Char) :
    levRec (x :: xs) (y :: ys) ≤ levRec xs ys + subCost x y := by
  rw [levRec_cons_cons]
  exact le_trans (min_le_right _ _) (min_le_right _ _)

theorem levRec_le_of_aligns {a b : List Char} {n : Nat} (h : Aligns a b n) :
    levRec a b ≤ n := by
  induction h with
  | nil => simp [levRec_nil]
  | ins y h ih => exact le_trans (levRec_le_ins _ y _) (by omega)
  | del x h ih => exact le_trans (levRec_le_del x _ _) (by omega)
  | sub x y h ih =>
    exact le_trans (levRec_le_sub x y _ _) (Nat.add_le_add_right ih _)

theorem aligns_nil_left (ys : List Char) : Aligns [] ys ys.length := by
  induction ys with
  | nil => exact .nil
  | cons y t ih => exact .ins y ih

theorem aligns_nil_right (xs : List Char) : Aligns xs [] xs.length := by
  induction xs with
  | nil => exact .nil
  | cons x t ih => exact .del x ih

theorem aligns_levRec (a : List Char) : ∀ b : List Char, Aligns a b (levRec a b) := by
  induction a with
  | nil => intro b; rw [levRec_nil]; exact aligns_nil_left b
  | cons x xs iha =>
    intro b
    induction b with
    | nil => rw [levRec_nil_right]; exact aligns_nil_right _
    | cons y ys ihb =>
      rw [levRec_cons_cons]
      rcases min_choice (levRec xs (y :: ys) + 1)
          (min (levRec (x :: xs) ys + 1) (levRec xs ys + subCost x y)) with h | h
      · rw [h]; exact .del x (iha (y :: ys))
      · rw [h]
        rcases min_choice (levRec (x :: xs) ys + 1) (levRec xs ys + subCost x y) with
          h2 | h2
        · rw [h2]; exact .ins y ihb
        · rw [h2]; exact .sub x y (iha ys)

theorem aligns_symm {a b : List Char} {n : Nat} (h : Aligns a b n) : Aligns b a n := by
  induction h with
  | nil => exact .nil
  | ins y h ih => exact .del y ih
  | del x h ih => exact .ins x ih
  | sub x y h ih => rw [subCost_comm]; exact .sub y x ih

theorem levRec_symm (a b : List Char) : levRec a b = levRec b a :=
  le_antisymm (levRec_le_of_aligns (aligns_symm (aligns_levRec b a)))
    (levRec_le_of_aligns (aligns_symm (aligns_levRec a b)))

theorem aligns_refl (a : List Char) : Aligns a a 0 := by
  induction a with
  | nil => exact .nil
  | cons x t ih => simpa [subCost_self] using Aligns.sub x x ih

theorem levRec_self (a : List Char) : levRec a a = 0 :=
  Nat.le_zero.mp (levRec_le_of_aligns (aligns_refl a))

theorem aligns_compose : ∀ {b c : List Char} {n : Nat}, Aligns b c n →
    ∀ {a : List Char} {m : Nat}, Aligns a b m → ∃ k, k ≤ m + n ∧ Aligns a c k := by
  intro b c n h2
  induction h2 with
  | nil => exact fun h1 => ⟨_, by omega, h1⟩
  | @ins y bb cc nn h2' ih =>
    intro a m h1
    obtain ⟨k, hk, hal⟩ := ih h1
    exact ⟨k + 1, by omega, .ins y hal⟩
  | @del x bb cc nn h2' ih =>
    intro a m h1
    have inner : ∀ (a B : List Char) (m : Nat), Aligns a B m → B = x :: bb →
        ∃ k, k ≤ m + (nn + 1) ∧ Aligns a cc k := by
      intro a B m h1
      induction h1 with
      | nil => intro hB; exact absurd hB (by simp)
      | @ins y' a' ys' n'' h1' ih1 =>
        intro hB
        injection hB with he1 he2
        rw [he2] at h1'
        obtain ⟨k, hk, hal⟩ := ih h1'
        exact ⟨k, by omega, hal⟩
      | @del z a' ys' n'' h1' ih1 =>
        intro hB
        subst hB
        obtain ⟨k, hk, hal⟩ := ih1 rfl
        exact ⟨k + 1, by omega, .del z hal⟩
      | @sub z y' a' ys' n'' h1' ih1 =>
        intro hB
        injection hB with he1 he2
        rw [he2] at h1'
        obtain ⟨k, hk, hal⟩ := ih h1'
        exact ⟨k + 1, by omega, .del z hal⟩
    exact inner a (x :: bb) m h1 rfl
  | @sub x y bb cc nn h2' ih =>
    intro a m h1
    have inner : ∀ (a B : List Char) (m : Nat), Aligns a B m → B = x :: bb →
        ∃ k, k ≤ m + (nn + subCost x y) ∧ Aligns a (y :: cc) k := by
      intro a B m h1
      induction h1 with
      | nil => intro hB; exact absurd hB (by simp)
      | @ins y' a' ys' n'' h1' ih1 =>
        intro hB
        injection hB with he1 he2
        rw [he2] at h1'
        obtain ⟨k, hk, hal⟩ := ih h1'
        exact ⟨k + 1, by omega, .ins y hal⟩
      | @del z a' ys' n'' h1' ih1 =>
        intro hB
        subst hB
        obtain ⟨k, hk, hal⟩ := ih1 rfl
        exact ⟨k + 1, by omega, .del z hal⟩
      | @sub z y' a' ys' n'' h1' ih1 =>
        intro hB
        injection hB with he1 he2
        rw [he2] at h1'
        obtain ⟨k, hk, hal⟩ := ih h1'
        have ht := subCost_triangle z x y
        rw [he1]
        exact ⟨k + subCost z y, by omega, .sub z y hal⟩
    exact inner a (x :: bb) m h1 rfl

theorem levRec_triangle (a b c : List Char) :
    levRec a c ≤ levRec a b + levRec b c := by
  obtain ⟨k, hk, hal⟩ := aligns_compose (aligns_levRec b c) (aligns_levRec a b)
  exact le_trans (levRec_le_of_aligns hal) hk

theorem aligns_snoc_ins (y : Char) {xs ys : List Char} {n : Nat} (h : Aligns xs ys n) :
    Aligns xs (ys ++ [y]) (n + 1) := by
  induction h with
  | nil => simpa using Aligns.ins y Aligns.nil
  | @ins y' a' b' n' h' ih => simpa using Aligns.ins y' ih
  | @del z a' b' n' h' ih => exact Aligns.del z ih
  | @sub z y' a' b' n' h' ih =>
    have hstep := Aligns.sub z y' ih
    have heq : n' + 1 + subCost z y' = n' + subCost z y' + 1 := by omega
    rw [heq] at hstep
    simpa using hstep

theorem aligns_snoc_del (x : Char) {xs ys : List Char} {n : Nat} (h : Aligns xs ys n) :
    Aligns (xs ++ [x]) ys (n + 1) := by
  induction h with
  | nil => simpa using Aligns.del x Aligns.nil
  | @ins y' a' b' n' h' ih => exact Aligns.ins y' ih
  | @del z a' b' n' h' ih => simpa using Aligns.del z ih
  | @sub z y' a' b' n' h' ih =>
    have hstep := Aligns.sub z y' ih
    have heq : n' + 1 + subCost z y' = n' + subCost z y' + 1 := by omega
    rw [heq] at hstep
    simpa using hstep

theorem aligns_snoc_sub (x y : Char) {xs ys : List Char} {n : Nat} (h : Aligns xs ys n) :
    Aligns (xs ++ [x]) (ys ++ [y]) (n + subCost x y) := by
  induction h with
  | nil => simpa using Aligns.sub x y Aligns.nil
  | @ins y' a' b' n' h' ih =>
    have hstep := Aligns.ins y' ih
    have heq : n' + subCost x y + 1 = n' + 1 + subCost x y := by omega
    rw [heq] at hstep
    simpa using hstep
  | @del z a' b' n' h' ih =>
    have hstep := Aligns.del z ih
    have heq : n' + subCost x y + 1 = n' + 1 + subCost x y := by omega
    rw [heq] at hstep
    simpa using hstep
  | @sub z y' a' b' n' h' ih =>
    have hstep := Aligns.sub z y' ih
    have heq : n' + subCost x y + subCost z y' = n' + subCost z y' + subCost x y := by
      omega
    rw [heq] at hstep
    simpa using hstep

theorem aligns_reverse {a b : List Char} {n : Nat} (h : Aligns a b n) :
    Aligns a.reverse b.reverse n := by
  induction h with
  | nil => exact .nil
  | @ins y a' b' n' h' ih => simpa [List.reverse_cons] using aligns_snoc_ins y ih
  | @del x a' b' n' h' ih => simpa [List.reverse_cons] using aligns_snoc_del x ih
  | @sub x y a' b' n' h' ih => simpa [List.reverse_cons] using aligns_snoc_sub x y ih

theorem levRec_reverse (a b : List Char) :
    levRec a.reverse b.reverse = levRec a b := by
  refine le_antisymm ?_ ?_
  · exact levRec_le_of_aligns (aligns_reverse (aligns_levRec a b))
  · have h := levRec_le_of_aligns (aligns_reverse (aligns_levRec a.reverse b.reverse))
    simpa using h

theorem levRec_snoc_snoc (x y : Char) (xs ys : List Char) :
    levRec (xs ++ [x]) (ys ++ [y])
      = min (levRec xs (ys ++ [y]) + 1)
          (min (levRec (xs ++ [x]) ys + 1) (levRec xs ys + subCost x y)) := by
  have e0 := levRec_reverse (xs ++ [x]) (ys ++ [y])
  have e1 := levRec_reverse xs (ys ++ [y])
  have e2 := levRec_reverse (xs ++ [x]) ys
  have e3 := levRec_reverse xs ys
  simp only [List.reverse_append, List.reverse_cons, List.reverse_nil,
    List.nil_append, List.singleton_append] at e0 e1 e2 e3
  rw [← e0, levRec_cons_cons, e1, e2, e3]

theorem levRow_spec (ca : Char) (ta : List Char) : ∀ (bs pre : List Char),
    levRow ca bs
        ((List.range bs.length).map (fun t => levRec ta (pre ++ bs.take (t + 1))))
        (levRec ta pre) (levRec (ta ++ [ca]) pre)
      = (List.range bs.length).map
          (fun t => levRec (ta ++ [ca]) (pre ++ bs.take (t + 1))) := by
  intro bs
  induction bs with
  | nil => intro pre; simp [levRow]
  | cons cb bs' ih =>
    intro pre
    rw [List.length_cons, List.range_succ_eq_map, List.map_cons, List.map_cons,
      List.map_map, List.map_map]
    simp only [List.take_succ_cons, List.take_zero]
    have htail : (List.range bs'.length).map
          ((fun t => levRec ta (pre ++ cb :: bs'.take t)) ∘ Nat.succ)
        = (List.range bs'.length).map
            (fun t => levRec ta ((pre ++ [cb]) ++ bs'.take (t + 1))) := by
      apply List.map_congr_left
      intro t _
      simp [Function.comp, List.append_assoc]
    have htail2 : (List.range bs'.length).map
          ((fun t => levRec (ta ++ [ca]) (pre ++ cb :: bs'.take t)) ∘ Nat.succ)
        = (List.range bs'.length).map
            (fun t => levRec (ta ++ [ca]) ((pre ++ [cb]) ++ bs'.take (t + 1))) := by
      apply List.map_congr_left
      intro t _
      simp [Function.comp, List.append_assoc]
    rw [htail, htail2]
    simp only [levRow]
    rw [← levRec_snoc_snoc ca cb ta pre]
    rw [ih (pre ++ [cb])]

theorem rowFor_eq_cons (ta b : List Char) :
    rowFor ta b
      = levRec ta [] :: (List.range b.length).map (fun t => levRec ta (b.take (t + 1))) := by
  unfold rowFor
  rw [List.range_succ_eq_map, List.map_cons, List.map_map]
  simp only [List.take_zero]
  congr 1

theorem levRows_spec (b : List Char) : ∀ (ar ta : List Char),
    levRows b ar ta.length (rowFor ta b) = rowFor (ta ++ ar) b := by
  intro ar
  induction ar with
  | nil => intro ta; simp [levRows]
  | cons ca ar' ih =>
    intro ta
    simp only [levRows]
    have hrow : (ta.length + 1)
          :: levRow ca b (rowFor ta b).tail ((rowFor ta b).headD 0) (ta.length + 1)
        = rowFor (ta ++ [ca]) b := by
      rw [rowFor_eq_cons ta b]
      simp only [List.tail_cons, List.headD_cons]
      have hs := levRow_spec ca ta b []
      simp only [List.nil_append] at hs
      have hleft : levRec (ta ++ [ca]) [] = ta.length + 1 := by
        rw [levRec_nil_right]; simp
      rw [rowFor_eq_cons (ta ++ [ca]) b, hleft]
      rw [hleft] at hs
      rw [hs]
    rw [hrow]
    have hlen : ta.length + 1 = (ta ++ [ca]).length := by simp
    rw [hlen, ih (ta ++ [ca])]
    have : (ta ++ [ca]) ++ ar' = ta ++ ca :: ar' := by
      simp [List.append_assoc]
    rw [this]

theorem levL_eq_levRec (a b : List Char) : levL a b = levRec a b := by
  unfold levL
  have h0 : List.range (b.length + 1) = rowFor [] b := by
    unfold rowFor
    rw [eq_comm]
    have hz : ∀ j ∈ List.range (b.length + 1), levRec [] (b.take j) = j := by
      intro j hj
      rw [levRec_nil, List.length_take]
      have := List.mem_range.mp hj
      omega
    rw [List.map_congr_left hz]
    simp
  have h2 := levRows_spec b a []
  simp only [List.length_nil, List.nil_append] at h2
  rw [h0, h2]
  unfold rowFor
  rw [List.range_succ, List.map_append]
  simp [List.getLastD_concat, List.take_length]

theorem levenshtein_distance_eq_levRec (a b : String) :
    levenshtein_distance a b = levRec a.data b.data :=
  levL_eq_levRec a.data b.data

/-! Claim theorems. -/

/-- C7: the edit-distance function of the dp loops is the classic Levenshtein
metric: it vanishes on equal strings, is symmetric, and satisfies the triangle
inequality. -/
theorem levenshtein_metric :
    (∀ a : String, levenshtein_distance a a = 0)
    ∧ (∀ a b : String, levenshtein_distance a b = levenshtein_distance b a)
    ∧ (∀ a b c : String, levenshtein_distance a c
        ≤ levenshtein_distance a b + levenshtein_distance b c) := by
  refine ⟨?_, ?_, ?_⟩
  · intro a
    rw [levenshtein_distance_eq_levRec]
    exact levRec_self _
  · intro a b
    rw [levenshtein_distance_eq_levRec, levenshtein_distance_eq_levRec]
    exact levRec_symm _ _
  · intro a b c
    rw [levenshtein_distance_eq_levRec, levenshtein_distance_eq_levRec,
      levenshtein_distance_eq_levRec]
    exact levRec_triangle _ _ _

/-- C3 (evaluation at the failing input): in the version2 classifier a total
score of exactly 10 — whitelist miss 2, one subject keyword 3, one IP-literal
URL 5 — is labelled Safe, because the code compares with strict >, contradicting
the >= decision rule of the claim and of the function's own comment. -/
theorem classify_threshold_boundary_eval :
    V2.classify_email ⟨[], ["urgent".data]⟩ "a@x.com".data "urgent".data
      "http://1.2.3.4".data = ("Safe", 10) := by decide

/-- C4: under the default configuration, the canonical scenario
(sender scammer@paypa1.com, subject "Urgent: Verify your account", body
containing http://192.168.0.1) is labelled Phishing with total 21: whitelist
miss 2, subject keywords urgent/verify/account 9, lookalike of paypal.com 5,
IP-literal URL 5. -/
theorem phishing_scenario_default_config :
    V2.whitelist_check V2.defaultV2 "scammer@paypa1.com".data = 2
    ∧ V2.keyword_check V2.defaultV2 "Urgent: Verify your account".data
        "http://192.168.0.1".data = 9
    ∧ V2.edit_distance_check V2.defaultV2 "scammer@paypa1.com".data = 5
    ∧ V2.suspicious_url_check V2.defaultV2 "Urgent: Verify your account".data
        "http://192.168.0.1".data = 5
    ∧ V2.classify_email V2.defaultV2 "scammer@paypa1.com".data
        "Urgent: Verify your account".data "http://192.168.0.1".data
        = ("Phishing", 21) :=
  ⟨by decide, by decide, by decide, by decide, by decide⟩

/-- C9: in keyword_check, a keyword found in the 200-character early window is
necessarily found in the body (the window is a prefix of the body), so a single
keyword contributes one of 0, 1, 3, 4, 6 and never the early bonus alone. -/
theorem keyword_contribution_values (kw s b : List Char) :
    (containsSub (b.take 200) kw = true → containsSub b kw = true)
    ∧ V2.kwContrib kw s b ∈ ([0, 1, 3, 4, 6] : List Nat) := by
  refine ⟨fun h => containsSub_take_mono h, ?_⟩
  unfold V2.kwContrib
  by_cases hs : containsSub s kw = true <;>
    by_cases hb : containsSub b kw = true <;>
      by_cases he : containsSub (b.take 200) kw = true
  all_goals first
    | exact absurd (containsSub_take_mono he) hb
    | simp [hs, hb, he]

/-- C5: keyword_check adds, per configured keyword, 3 for a subject occurrence,
1 for a body occurrence and an extra 2 for an occurrence inside the first 200
characters of the lowercased body, each counted once per keyword; a keyword
whose body occurrences all start at index 200 or later earns the body weight
but not the early bonus, while an occurrence contained in the first 200
characters earns both. -/
theorem keyword_positional_scoring (cfg : V2.Config) (subject body : List Char) :
    V2.keyword_check cfg subject body
      = (cfg.keywords.map
          (fun kw => V2.kwContrib kw (lowerL subject) (lowerL body))).sum
    ∧ (∀ kw : List Char, kw ≠ [] →
        containsSub (lowerL body) kw = true →
        (∀ i, i < 200 → ¬ occursAt kw (lowerL body) i) →
        V2.kwContrib kw (lowerL subject) (lowerL body)
          = (if containsSub (lowerL subject) kw then 3 else 0) + 1)
    ∧ (∀ (kw : List Char) (i : Nat), occursAt kw (lowerL body) i →
        i + kw.length ≤ 200 →
        V2.kwContrib kw (lowerL subject) (lowerL body)
          = (if containsSub (lowerL subject) kw then 3 else 0) + 3) := by
  refine ⟨keyword_check_eq_sum cfg subject body, ?_, ?_⟩
  · intro kw hne hbody hlate
    have hearly : containsSub ((lowerL body).take 200) kw = false := by
      cases hcs : containsSub ((lowerL body).take 200) kw with
      | false => rfl
      | true =>
        obtain ⟨i, hile, hocc⟩ := (containsSub_take_iff kw (lowerL body) 200).mp hcs
        have hk : kw.length ≠ 0 := fun h0 => hne (List.length_eq_zero.mp h0)
        exact absurd hocc (hlate i (by omega))
    unfold V2.kwContrib
    rw [hbody, hearly]
    simp
  · intro kw i hocc hile
    have hearly : containsSub ((lowerL body).take 200) kw = true :=
      (containsSub_take_iff kw (lowerL body) 200).mpr ⟨i, hile, hocc⟩
    have hbody : containsSub (lowerL body) kw = true := containsSub_of_occursAt hocc
    unfold V2.kwContrib
    rw [hbody, hearly]
    simp [add_assoc]

/-- Witness for C5: the keyword verify occurring only at body index 201 earns
1, and the keyword click occurring at index 7 (inside the early window) earns
1 + 2 = 3, in both cases on top of the subject part. -/
theorem keyword_positional_scoring_witness :
    V2.kwContrib "verify".data (lowerL "hello".data)
        (lowerL (List.replicate 200 'a' ++ 'x' :: "verify".data))
      = (if containsSub (lowerL "hello".data) "verify".data then 3 else 0) + 1
    ∧ V2.kwContrib "click".data (lowerL "hello".data) (lowerL "please click now".data)
      = (if containsSub (lowerL "hello".data) "click".data then 3 else 0) + 3 :=
  ⟨(keyword_positional_scoring ⟨[], ["verify".data]⟩ "hello".data
      (List.replicate 200 'a' ++ 'x' :: "verify".data)).2.1 "verify".data
      (by decide) (by decide) (by decide),
   (keyword_positional_scoring ⟨[], ["click".data]⟩ "hello".data
      "please click now".data).2.2 "click".data 7 (by decide) (by decide)⟩

/-- C6: when the body contains exactly one URL, its host is an IPv4 literal, no
configured legit domain is mentioned in the subject-plus-body text, and the URL
authority contains no embedded @, the suspicious-URL score is exactly the
IP-literal penalty 5; with no URLs at all it is 0. -/
theorem suspicious_url_ip_only :
    (∀ (cfg : V2.Config) (subject body url : List Char),
        V2.extract_urls body = [url] →
        V2.is_ip_literal (V2.url_domain url) = true →
        (∀ d ∈ cfg.legit_domains,
          containsSub (lowerL (subject ++ '\n' :: body)) d = false) →
        ((afterFirstSub "://".data url).takeWhile (fun c => !(c = '/'))).contains '@'
            = false →
        V2.suspicious_url_check cfg subject body = 5)
    ∧ (∀ (cfg : V2.Config) (subject body : List Char),
        V2.extract_urls body = [] → V2.suspicious_url_check cfg subject body = 0) := by
  constructor
  · intro cfg subject body url h1 h2 h3 h4
    unfold V2.suspicious_url_check
    rw [h1]
    have hcl : cfg.legit_domains.filter
        (fun d => containsSub (lowerL (subject ++ '\n' :: body)) d) = [] :=
      List.filter_eq_nil_iff.mpr (fun d hd => by simp [h3 d hd])
    simp [hcl, h2, h4]
    simpa using h4
  · intro cfg subject body h
    unfold V2.suspicious_url_check
    rw [h]
    simp

/-- Witness for C6: a body with the single URL http://1.2.3.4 scores exactly 5,
and a body without URLs scores 0. -/
theorem suspicious_url_ip_only_witness :
    V2.suspicious_url_check ⟨["paypal.com".data], []⟩ "hi".data
        "go http://1.2.3.4 now".data = 5
    ∧ V2.suspicious_url_check V2.defaultV2 "subject".data "no links here".data = 0 :=
  ⟨suspicious_url_ip_only.1 ⟨["paypal.com".data], []⟩ "hi".data
      "go http://1.2.3.4 now".data "http://1.2.3.4".data
      (by decide) (by decide) (by decide) (by decide),
   suspicious_url_ip_only.2 V2.defaultV2 "subject".data "no links here".data (by decide)⟩

/-- C8 counterexample: on a@b@c.com the extraction of utils.py returns b@c.com,
the part after the first @, not c.com, the part after the last @ stated by the
claim. -/
theorem extract_domain_last_at_cex :
    PD.extract_domain "a@b@c.com".data = "b@c.com".data
    ∧ pyStrip (lowerL (afterLastChar '@' "a@b@c.com".data)) = "c.com".data
    ∧ "b@c.com".data ≠ "c.com".data :=
  ⟨by decide, by decide, by decide⟩

theorem dropWhile_no_at_append {p : List Char} (hp : '@' ∉ p) (r : List Char) :
    (p ++ '@' :: r).dropWhile (fun c => !(c = '@')) = '@' :: r := by
  induction p with
  | nil => simp [List.dropWhile]
  | cons c t ih =>
    have hc : c ≠ '@' := fun h => hp (h ▸ List.mem_cons_self c t)
    have ht : '@' ∉ t := fun h => hp (List.mem_cons_of_mem c h)
    simp [List.dropWhile_cons, hc, ih ht]

/-- C8 amended: extract_domain of utils.py returns the substring after the
first @, lowercased and trimmed, and the empty string when the address contains
no @; it is a total function. -/
theorem extract_domain_first_at :
    (∀ p r : List Char, '@' ∉ p →
        PD.extract_domain (p ++ '@' :: r) = pyStrip (lowerL r))
    ∧ (∀ s : List Char, '@' ∉ s → PD.extract_domain s = []) := by
  constructor
  · intro p r hp
    unfold PD.extract_domain
    have hmem : (p ++ '@' :: r).contains '@' = true := by
      simp [List.contains_eq_any_beq]
    rw [hmem]
    simp only [if_true]
    unfold afterFirstChar
    rw [dropWhile_no_at_append hp]
    simp
  · intro s hs
    unfold PD.extract_domain
    have hmem : s.contains '@' = false := by
      rcases hic : s.contains '@' with _ | _
      · rfl
      · exact absurd (by simpa [List.contains_eq_any_beq, List.any_eq_true] using hic) hs
    rw [hmem]
    simp

/-- Witness for C8: extracting from user@" PayPal.COM " yields the trimmed,
lowercased part after the first @, and an address without @ yields "". -/
theorem extract_domain_first_at_witness :
    PD.extract_domain ("user".data ++ '@' :: " PayPal.COM ".data)
      = pyStrip (lowerL " PayPal.COM ".data)
    ∧ PD.extract_domain "nodomain".data = [] :=
  ⟨extract_domain_first_at.1 "user".data " PayPal.COM ".data (by decide),
   extract_domain_first_at.2 "nodomain".data (by decide)⟩

/-- C10: in newrules.py the whitelist test is a bare endswith, so the sender
domain evilpaypal.com — neither equal to nor a dot-separated subdomain of any
configured legit domain — is treated as whitelisted and classify_email returns
("Ham", 0.0) whatever the subject and body are. -/
theorem newrules_endswith_whitelist_bypass :
    (∀ (O : NR.Oracles) (subject body : List Char),
        NR.classify_email O NR.defaultNR "attacker@evilpaypal.com".data subject body
          = ("Ham", 0))
    ∧ NR.extract_domain "attacker@evilpaypal.com".data = "evilpaypal.com".data
    ∧ NR.defaultNR.legit_domains.all
        (fun d => !("evilpaypal.com".data == d)
          && !(('.' :: d).isSuffixOf "evilpaypal.com".data)) = true :=
  ⟨fun _ _ _ => rfl, by decide, by decide⟩

/-- C2: both classifiers are total and always return a labelled pair — the
newrules label is Ham or Phishing, the rules label Safe or Phishing — the
newrules entry point is the try body guarded by the exception handler, and the
handler maps a failed classification to the sentinel ("Ham", -999.0). -/
theorem classify_total_and_fallback :
    (∀ (O : NR.Oracles) (cfg : NR.Config) (sender subject body : List Char),
        (NR.classify_email O cfg sender subject body).1 = "Ham"
          ∨ (NR.classify_email O cfg sender subject body).1 = "Phishing")
    ∧ NR.classify_fallback none = ("Ham", -999)
    ∧ (∀ (O : NR.Oracles) (cfg : NR.Config) (sender subject body : List Char),
        NR.classify_email O cfg sender subject body
          = NR.classify_fallback (NR.classify_email_try O cfg sender subject body))
    ∧ (∀ (cfg : V2.Config) (sender subject body : List Char),
        (V2.classify_email cfg sender subject body).1 = "Safe"
          ∨ (V2.classify_email cfg sender subject body).1 = "Phishing") := by
  refine ⟨?_, rfl, fun _ _ _ _ _ => rfl, ?_⟩
  · intro O cfg sender subject body
    simp only [NR.classify_email, NR.classify_fallback, NR.classify_email_try]
    split
    · exact Or.inl rfl
    · split
      · exact Or.inr rfl
      · exact Or.inl rfl
  · intro cfg sender subject body
    simp only [V2.classify_email]
    split
    · exact Or.inr rfl
    · exact Or.inl rfl

/-- C1 counterexample: paypal.com is a configured legit domain and the
whitelist detector scores 0 on support@paypal.com, yet the version2 classifier
does not short-circuit: a keyword-stuffed subject still drives the very same
email to ("Phishing", 15), so the label is not Safe and the score does not
reflect only the whitelist detector. -/
theorem whitelist_hit_no_shortcircuit_cex :
    "paypal.com".data ∈ V2.defaultV2.legit_domains
    ∧ V2.whitelist_check V2.defaultV2 "support@paypal.com".data = 0
    ∧ V2.classify_email V2.defaultV2 "support@paypal.com".data
        "urgent verify account password click".data "".data = ("Phishing", 15) :=
  ⟨by decide, by decide, by decide⟩

/-- C1 amended: only the newrules variant short-circuits on a whitelist hit,
returning ("Ham", 0.0) regardless of subject and body; in the version2 rules
variant a whitelist hit merely contributes 0 while the remaining detectors
still run, their sum is the final score and it alone decides the label. -/
theorem whitelist_hit_behavior :
    (∀ (O : NR.Oracles) (cfg : NR.Config) (sender subject body : List Char),
        (NR.extract_domain sender).isEmpty = false →
        cfg.legit_domains.any
          (fun ld => ld.isSuffixOf (NR.extract_domain sender)) = true →
        NR.classify_email O cfg sender subject body = ("Ham", 0))
    ∧ (∀ (cfg : V2.Config) (sender subject body : List Char),
        V2.whitelist_check cfg sender = 0 →
        (V2.classify_email cfg sender subject body).2
            = V2.keyword_check cfg subject body + V2.edit_distance_check cfg sender
              + V2.suspicious_url_check cfg subject body
          ∧ ((V2.classify_email cfg sender subject body).1 = "Phishing"
              ↔ 10 < V2.keyword_check cfg subject body + V2.edit_distance_check cfg sender
                  + V2.suspicious_url_check cfg subject body)) := by
  constructor
  · intro O cfg sender subject body h1 h2
    simp only [NR.classify_email, NR.classify_fallback, NR.classify_email_try,
      NR.whitelist_check, h1, h2]
    simp
  · intro cfg sender subject body h
    have h2 : V2.classify_email cfg sender subject body
        = (if 10 < V2.keyword_check cfg subject body + V2.edit_distance_check cfg sender
              + V2.suspicious_url_check cfg subject body then "Phishing" else "Safe",
           V2.keyword_check cfg subject body + V2.edit_distance_check cfg sender
             + V2.suspicious_url_check cfg subject body) := by
      simp only [V2.classify_email, h, Nat.zero_add]
    rw [h2]
    refine ⟨rfl, ?_⟩
    by_cases hc : 10 < V2.keyword_check cfg subject body + V2.edit_distance_check cfg sender
        + V2.suspicious_url_check cfg subject body
    · simp [hc]
    · simp [hc]

/-- Witness for C1: the short-circuit branch at a whitelisted newrules sender,
and the decomposed version2 score at a whitelisted rules sender. -/
theorem whitelist_hit_behavior_witness :
    NR.classify_email ⟨fun _ => [], fun _ => false⟩ NR.defaultNR
        "support@paypal.com".data "anything urgent".data "http://x".data = ("Ham", 0)
    ∧ (V2.classify_email V2.defaultV2 "support@paypal.com".data
          "urgent verify account password click".data "".data).2
        = V2.keyword_check V2.defaultV2 "urgent verify account password click".data "".data
          + V2.edit_distance_check V2.defaultV2 "support@paypal.com".data
          + V2.suspicious_url_check V2.defaultV2
              "urgent verify account password click".data "".data :=
  ⟨whitelist_hit_behavior.1 ⟨fun _ => [], fun _ => false⟩ NR.defaultNR
      "support@paypal.com".data "anything urgent".data "http://x".data
      (by decide) (by decide),
   (whitelist_hit_behavior.2 V2.defaultV2 "support@paypal.com".data
      "urgent verify account password click".data "".data (by decide)).1⟩

end PhishModel
